import Mathlib

/-!
# Verification of the csv-converter alumni pipelines

Shallow embedding of the two API routes of the repository:

* `/api/transform` (flat cleaning pipeline), embedded as `acceptRow`,
  `transformRecord`, `transformedData`, `transformPOST`;
* `/api/normalize` (three-table normalization pipeline), embedded as
  `getValue`, `processRow`, `normalizeFrom`, `normalizeTables`,
  `normalizePOST`.

Rows arrive already split into header-keyed records (the CSV parsing
library and the multipart plumbing are external collaborators); string
values, JavaScript `trim`, `Number`, truthiness and the insertion-ordered
`Map` are modelled explicitly below.
-/

namespace CsvConverter

/-! ## JavaScript string trimming

`String.prototype.trim` removes leading and trailing whitespace.  The
whitespace class is modelled by `isWS` (space, tab, line feed, carriage
return, vertical tab, form feed — the ASCII members of the ECMAScript
whitespace set; the input CSVs are ASCII).
-/

/-- ASCII whitespace, as stripped by JavaScript `trim`. -/
def isWS (c : Char) : Bool :=
  c = ' ' || c = '\t' || c = '\n' || c = '\r' || c = '\x0b' || c = '\x0c'

/-- Strip leading and trailing whitespace from a character list. -/
def trimChars (l : List Char) : List Char :=
  ((l.dropWhile isWS).reverse.dropWhile isWS).reverse

/-- JavaScript `s.trim()`. -/
def jsTrim (s : String) : String :=
  ⟨trimChars s.data⟩

theorem head_dropWhile_false {p : Char → Bool} :
    ∀ (l : List Char) (a : Char), (l.dropWhile p).head? = some a → p a = false := by
  intro l
  induction l with
  | nil => intro a h; simp [List.dropWhile] at h
  | cons x xs ih =>
    intro a h
    rw [List.dropWhile_cons] at h
    by_cases hx : p x = true
    · rw [if_pos hx] at h
      exact ih a h
    · rw [if_neg hx] at h
      simp only [List.head?_cons, Option.some.injEq] at h
      subst h
      exact Bool.eq_false_iff.mpr hx

theorem dropWhile_of_head_false {p : Char → Bool} {l : List Char}
    (h : ∀ a, l.head? = some a → p a = false) : l.dropWhile p = l := by
  cases l with
  | nil => rfl
  | cons x xs =>
    rw [List.dropWhile_cons, if_neg]
    simp only [Bool.not_eq_true]
    exact h x rfl

theorem getLast?_dropWhile {p : Char → Bool} :
    ∀ l : List Char, l.dropWhile p ≠ [] → (l.dropWhile p).getLast? = l.getLast? := by
  intro l
  induction l with
  | nil => intro h; simp [List.dropWhile] at h
  | cons x xs ih =>
    intro h
    rw [List.dropWhile_cons]
    by_cases hx : p x = true
    · rw [List.dropWhile_cons, if_pos hx] at h
      rw [if_pos hx, ih h]
      cases xs with
      | nil => simp [List.dropWhile] at h
      | cons y ys => simp [List.getLast?_cons_cons]
    · rw [if_neg hx]

theorem trimChars_idem (l : List Char) : trimChars (trimChars l) = trimChars l := by
  unfold trimChars
  have h1 : ((l.dropWhile isWS).reverse.dropWhile isWS).reverse.dropWhile isWS
      = ((l.dropWhile isWS).reverse.dropWhile isWS).reverse := by
    apply dropWhile_of_head_false
    intro a ha
    rw [List.head?_reverse] at ha
    by_cases hBnil : (l.dropWhile isWS).reverse.dropWhile isWS = []
    · rw [hBnil] at ha; simp at ha
    · rw [getLast?_dropWhile _ hBnil, List.getLast?_reverse] at ha
      exact head_dropWhile_false _ a ha
  rw [h1, List.reverse_reverse,
    dropWhile_of_head_false (fun a h => head_dropWhile_false _ a h)]

theorem jsTrim_idem (s : String) : jsTrim (jsTrim s) = jsTrim s := by
  unfold jsTrim
  rw [trimChars_idem]

theorem jsTrim_empty : jsTrim "" = "" := rfl

/-! ## Rows and field resolution (Normalize pipeline)

The Normalize route types its rows as
`Record<string, string | null | undefined>`: looking a key up yields
`undefined` (key absent), `null`, or a string.  A row is modelled as a
function from key to `Option (Option String)`:
`none` = `undefined`, `some none` = `null`, `some (some s)` = string `s`.
-/

/-- A parsed CSV row of the Normalize route (`CsvRow`). -/
def Row : Type := String → Option (Option String)

/-- The guard of the `getValue` loop body:
`val !== undefined && val !== null && val !== ""`. -/
def presentVal : Option (Option String) → Bool
  | some (some v) => !(v == "")
  | _ => false

/-- The string held by a defined, non-null cell (and `""` otherwise). -/
def cellStr : Option (Option String) → String
  | some (some v) => v
  | _ => ""

/-- The `getValue` helper of the Normalize route: walk the alias list and,
at the first alias whose cell passes the guard
`val !== undefined && val !== null && val !== ""`, return `val.trim()`;
after the last alias return the empty string. -/
def getValue (row : Row) : List String → String
  | [] => ""
  | k :: ks => if presentVal (row k) then jsTrim (cellStr (row k)) else getValue row ks

/-- `LastName` resolved with its alias list, as in the Normalize route. -/
def resolvedLast (row : Row) : String := getValue row ["LastName", "last_name"]

/-- `FirstName` resolved with its alias list. -/
def resolvedFirst (row : Row) : String := getValue row ["FirstName", "first_name"]

/-- `Campus` resolved with its alias list. -/
def resolvedCampus (row : Row) : String := getValue row ["Campus", "campus"]

/-- `Batch` resolved with its alias list. -/
def resolvedBatch (row : Row) : String := getValue row ["Batch", "batch_year"]

theorem getValue_nil (row : Row) : getValue row [] = "" := rfl

theorem getValue_cons (row : Row) (k : String) (ks : List String) :
    getValue row (k :: ks)
      = if presentVal (row k) then jsTrim (cellStr (row k)) else getValue row ks := rfl

theorem getValue_trim_fixed (row : Row) :
    ∀ keys : List String, jsTrim (getValue row keys) = getValue row keys := by
  intro keys
  induction keys with
  | nil => exact jsTrim_empty
  | cons k ks ih =>
    rw [getValue_cons]
    by_cases h : presentVal (row k) = true
    · rw [if_pos h]; exact jsTrim_idem _
    · rw [if_neg h]; exact ih

theorem getValue_eq_find (row : Row) :
    ∀ keys : List String,
      getValue row keys =
        match keys.find? (fun k => presentVal (row k)) with
        | some k => jsTrim (cellStr (row k))
        | none => "" := by
  intro keys
  induction keys with
  | nil => rfl
  | cons k ks ih =>
    cases h : presentVal (row k) with
    | true => simp [getValue_cons, List.find?_cons, h]
    | false => simp [getValue_cons, List.find?_cons, h, ih]

/-! ## JavaScript `Number` on strings

`Number(row.Batch)` converts a string to a number.  The model covers the
decimal fragment of ECMAScript string-to-number conversion — surrounding
whitespace, an optional sign, a digit run with an optional fractional
part — as an exact rational (the batch strings at issue are far below
any double-precision rounding); every other form (hexadecimal, exponent
notation, `Infinity`, garbage) is mapped to `none`, the model's `NaN`.
(`Infinity` would be rejected by the `<= currentYear` bound just as
`none` is rejected by the `!isNaN` guard, so the outcome agrees.)
-/

/-- Value of a digit run, most significant first. -/
def digitsVal (l : List Char) : Nat :=
  l.foldl (fun acc c => acc * 10 + (c.toNat - 48)) 0

/-- An exact decimal number `num / 10 ^ scale`, the value a decimal
literal converts to (kept in scaled-integer form so that comparisons
are kernel-computable). -/
structure JsNum where
  num : Int
  scale : Nat
deriving DecidableEq, Repr

/-- The rational value of an exact decimal. -/
def JsNum.toRat (d : JsNum) : ℚ := (d.num : ℚ) / (10 : ℚ) ^ d.scale

/-- `m <= value`, computed on scaled integers. -/
def JsNum.intLe (m : Int) (d : JsNum) : Bool := decide (m * (10 : Int) ^ d.scale ≤ d.num)

/-- `value <= m`, computed on scaled integers. -/
def JsNum.leInt (d : JsNum) (m : Int) : Bool := decide (d.num ≤ m * (10 : Int) ^ d.scale)

/-- An unsigned decimal literal: digit run with optional `.` run. -/
def jsNumCore (l : List Char) : Option JsNum :=
  let intPart := l.takeWhile Char.isDigit
  let rest := l.dropWhile Char.isDigit
  match rest with
  | [] => if intPart.isEmpty then none
          else some ⟨(digitsVal intPart : Int), 0⟩
  | '.' :: frac =>
      if frac.all Char.isDigit && !(intPart.isEmpty && frac.isEmpty) then
        some ⟨(digitsVal intPart * 10 ^ frac.length + digitsVal frac : Nat), frac.length⟩
      else none
  | _ => none

/-- JavaScript `Number(s)` for a string (decimal fragment): whitespace-only
strings convert to `0`, otherwise an optionally signed decimal literal;
`none` stands for `NaN`. -/
def jsNumber (s : String) : Option JsNum :=
  match trimChars s.data with
  | [] => some ⟨0, 0⟩
  | '+' :: rest => jsNumCore rest
  | '-' :: rest => (jsNumCore rest).map (fun d => ⟨-d.num, d.scale⟩)
  | l => jsNumCore l

/-- `Number(x)` where `x : string | undefined`; `Number(undefined)` is `NaN`. -/
def jsNumberOpt : Option String → Option JsNum
  | none => none
  | some s => jsNumber s

theorem JsNum.intLe_iff (m : Int) (d : JsNum) :
    d.intLe m = true ↔ (m : ℚ) ≤ d.toRat := by
  have hpow : (0 : ℚ) < (10 : ℚ) ^ d.scale := by positivity
  rw [JsNum.intLe, decide_eq_true_iff, JsNum.toRat, le_div_iff₀ hpow]
  constructor
  · intro h
    calc (m : ℚ) * (10 : ℚ) ^ d.scale
        = ((m * (10 : Int) ^ d.scale : Int) : ℚ) := by push_cast; ring
      _ ≤ (d.num : ℚ) := by exact_mod_cast h
  · intro h
    have : ((m * (10 : Int) ^ d.scale : Int) : ℚ) ≤ (d.num : ℚ) := by
      calc ((m * (10 : Int) ^ d.scale : Int) : ℚ)
          = (m : ℚ) * (10 : ℚ) ^ d.scale := by push_cast; ring
        _ ≤ (d.num : ℚ) := h
    exact_mod_cast this

theorem JsNum.leInt_iff (m : Int) (d : JsNum) :
    d.leInt m = true ↔ d.toRat ≤ (m : ℚ) := by
  have hpow : (0 : ℚ) < (10 : ℚ) ^ d.scale := by positivity
  rw [JsNum.leInt, decide_eq_true_iff, JsNum.toRat, div_le_iff₀ hpow]
  constructor
  · intro h
    calc (d.num : ℚ) ≤ ((m * (10 : Int) ^ d.scale : Int) : ℚ) := by exact_mod_cast h
      _ = (m : ℚ) * (10 : ℚ) ^ d.scale := by push_cast; ring
  · intro h
    have : (d.num : ℚ) ≤ ((m * (10 : Int) ^ d.scale : Int) : ℚ) := by
      calc (d.num : ℚ) ≤ (m : ℚ) * (10 : ℚ) ^ d.scale := h
        _ = ((m * (10 : Int) ^ d.scale : Int) : ℚ) := by push_cast; ring
    exact_mod_cast this

/-! ## Transform pipeline (`/api/transform`)

Rows of the Transform route are typed
`{ LastName?: string; FirstName?: string; Campus?: string; Batch?: string }`.
-/

/-- A parsed CSV row of the Transform route. -/
structure TRow where
  LastName : Option String
  FirstName : Option String
  Campus : Option String
  Batch : Option String
deriving DecidableEq, Repr

/-- JavaScript truthiness of a `string | undefined` value:
`undefined` and `""` are falsy. -/
def truthy : Option String → Bool
  | none => false
  | some s => !(s == "")

/-- The row filter of the Transform route:
`hasRequiredFields && !isNaN(batchYear) && batchYear >= 1964 && batchYear <= currentYear`
with `batchYear = Number(row.Batch)`. -/
def acceptRow (currentYear : Int) (r : TRow) : Bool :=
  let hasRequiredFields :=
    truthy r.LastName && truthy r.FirstName && truthy r.Campus && truthy r.Batch
  let validBatch :=
    match jsNumberOpt r.Batch with
    | none => false
    | some d => d.intLe 1964 && d.leInt currentYear
  hasRequiredFields && validBatch

/-- An output record of the Transform route; the optional chaining
`row.LastName?.trim()` leaves `undefined` fields `undefined`. -/
structure CleanRec where
  last_name : Option String
  first_name : Option String
  campus : Option String
  batch_year : Option String
deriving DecidableEq, Repr

/-- The per-row output mapping of the Transform route. -/
def transformRecord (r : TRow) : CleanRec :=
  ⟨r.LastName.map jsTrim, r.FirstName.map jsTrim, r.Campus.map jsTrim, r.Batch.map jsTrim⟩

/-- `validRows.map(...)` : the Transform route's output record list. -/
def transformedData (currentYear : Int) (rows : List TRow) : List CleanRec :=
  (rows.filter (acceptRow currentYear)).map transformRecord

/-! ## Spec-side acceptance predicate

The spec (§4.2) words the acceptance test differently from the code:
fields must be non-empty *after trimming*, and `Batch` must parse as an
*integer* (decimal, surrounding whitespace allowed).  The following
definitions transcribe the spec's words, to be compared with the
code-derived `acceptRow` above.
-/

/-- Spec §4.2: parse `Batch` as a decimal integer, allowing leading and
trailing whitespace and an optional sign; anything else is a rejection. -/
def specIntOfString (s : String) : Option Int :=
  match trimChars s.data with
  | [] => none
  | '+' :: ds => if !ds.isEmpty && ds.all Char.isDigit then some (digitsVal ds : Int) else none
  | '-' :: ds => if !ds.isEmpty && ds.all Char.isDigit then some (-(digitsVal ds : Int)) else none
  | ds => if ds.all Char.isDigit then some (digitsVal ds : Int) else none

/-- Spec §4.2 condition 1 for one field: present and non-empty after trimming. -/
def specFieldOk : Option String → Bool
  | none => false
  | some s => !(jsTrim s == "")

/-- The spec's acceptance predicate for a Transform row (§4.2). -/
def specAcceptRow (currentYear : Int) (r : TRow) : Bool :=
  specFieldOk r.LastName && specFieldOk r.FirstName &&
  specFieldOk r.Campus && specFieldOk r.Batch &&
  (match r.Batch with
   | none => false
   | some s =>
     match specIntOfString s with
     | none => false
     | some b => decide (1964 ≤ b) && decide (b ≤ currentYear))

/-- The spec's acceptance predicate for a Normalize row, with the §4.3
alias resolution applied first (§4.2 over resolved fields). -/
def specAcceptN (currentYear : Int) (row : Row) : Bool :=
  !(resolvedLast row == "") && !(resolvedFirst row == "") &&
  !(resolvedCampus row == "") && !(resolvedBatch row == "") &&
  (match specIntOfString (resolvedBatch row) with
   | none => false
   | some b => decide (1964 ≤ b) && decide (b ≤ currentYear))

/-! ## Normalize pipeline (`/api/normalize`)

The route iterates the parsed rows with `forEach`, keeping a JavaScript
`Map` from campus name to campus id.  The `Map` is modelled as an
insertion-ordered association list: `set` (only ever called on an absent
key) appends, `get` looks up, `size` is the length (keys stay distinct
because insertion is guarded by `has`).
-/

/-- An `alumni.csv` entity. -/
structure Alumni where
  alumni_id : Nat
  last_name : String
  first_name : String
  batch_year : String
deriving DecidableEq, Repr

/-- A `campus.csv` entity. -/
structure Campus where
  campus_id : Nat
  campus_name : String
deriving DecidableEq, Repr

/-- An `alumni_campus.csv` junction entity. -/
structure AlumniCampus where
  alumni_id : Nat
  campus_id : Nat
deriving DecidableEq, Repr

/-- `campusSet.get k` on the association-list model of the `Map`. -/
def mapGet (m : List (String × Nat)) (k : String) : Option Nat :=
  match m with
  | [] => none
  | (k', v) :: rest => if k' = k then some v else mapGet rest k

/-- The accumulated state of the `forEach` loop. -/
structure NState where
  campusSet : List (String × Nat)
  alumni : List Alumni
  campuses : List Campus
  alumniCampus : List AlumniCampus
deriving DecidableEq, Repr

/-- The `(campus_name, campus_id)` pair a `Campus` entity contributes to
the `Map`. -/
def pairOf (c : Campus) : String × Nat := (c.campus_name, c.campus_id)

/-- One iteration of the `forEach` body of the Normalize route at row
index `idx`: resolve the four fields, set `alumniId = index + 1`, fetch
or mint the campus id, and push onto the three tables. -/
def processRow (st : NState) (idx : Nat) (row : Row) : NState :=
  let lastName := resolvedLast row
  let firstName := resolvedFirst row
  let campusName := resolvedCampus row
  let batchYear := resolvedBatch row
  let alumniId := idx + 1
  match mapGet st.campusSet campusName with
  | none =>
      let campusId := st.campusSet.length + 1
      { campusSet := st.campusSet ++ [(campusName, campusId)]
        alumni := st.alumni ++ [⟨alumniId, lastName, firstName, batchYear⟩]
        campuses := st.campuses ++ [⟨campusId, campusName⟩]
        alumniCampus := st.alumniCampus ++ [⟨alumniId, campusId⟩] }
  | some campusId =>
      { campusSet := st.campusSet
        alumni := st.alumni ++ [⟨alumniId, lastName, firstName, batchYear⟩]
        campuses := st.campuses
        alumniCampus := st.alumniCampus ++ [⟨alumniId, campusId⟩] }

/-- The `forEach` loop from row index `idx` in state `st`. -/
def normalizeFrom (st : NState) (idx : Nat) : List Row → NState
  | [] => st
  | r :: rs => normalizeFrom (processRow st idx r) (idx + 1) rs

/-- The empty state at the start of the route body. -/
def initState : NState := ⟨[], [], [], []⟩

/-- The three normalized tables the route builds from the parsed rows. -/
def normalizeTables (rows : List Row) : NState := normalizeFrom initState 0 rows

/-! ### Association-list facts about the campus `Map` -/

theorem mapGet_eq_none_iff (m : List (String × Nat)) (k : String) :
    mapGet m k = none ↔ k ∉ m.map Prod.fst := by
  induction m with
  | nil => simp [mapGet]
  | cons p rest ih =>
    obtain ⟨k', v⟩ := p
    by_cases h : k' = k
    · subst h
      simp [mapGet]
    · simp only [mapGet, if_neg h, List.map_cons, List.mem_cons]
      rw [ih]
      constructor
      · intro hn hmem
        rcases hmem with hmem | hmem
        · exact h hmem.symm
        · exact hn hmem
      · intro hn
        exact fun hmem => hn (Or.inr hmem)

theorem mapGet_mem {m : List (String × Nat)} {k : String} {v : Nat}
    (h : mapGet m k = some v) : (k, v) ∈ m := by
  induction m with
  | nil => simp [mapGet] at h
  | cons p rest ih =>
    obtain ⟨k', v'⟩ := p
    by_cases hk : k' = k
    · subst hk
      rw [mapGet, if_pos rfl, Option.some.injEq] at h
      subst h
      exact List.mem_cons_self _ _
    · rw [mapGet, if_neg hk] at h
      exact List.mem_cons_of_mem _ (ih h)

/-! ### The alumni table: one entity per row, ids `idx + 1` onwards -/

/-- The alumni entities the loop appends for `rows`, first index `idx`. -/
def alumniOf (idx : Nat) : List Row → List Alumni
  | [] => []
  | r :: rs =>
      ⟨idx + 1, resolvedLast r, resolvedFirst r, resolvedBatch r⟩ :: alumniOf (idx + 1) rs

theorem processRow_alumni (st : NState) (idx : Nat) (row : Row) :
    (processRow st idx row).alumni
      = st.alumni ++ [⟨idx + 1, resolvedLast row, resolvedFirst row, resolvedBatch row⟩] := by
  cases h : mapGet st.campusSet (resolvedCampus row) <;> simp [processRow, h]

theorem normalizeFrom_alumni :
    ∀ (rows : List Row) (st : NState) (idx : Nat),
      (normalizeFrom st idx rows).alumni = st.alumni ++ alumniOf idx rows := by
  intro rows
  induction rows with
  | nil => intro st idx; simp [normalizeFrom, alumniOf]
  | cons r rs ih =>
    intro st idx
    rw [normalizeFrom, ih, processRow_alumni, alumniOf, List.append_assoc]
    rfl

theorem alumniOf_length (idx : Nat) (rows : List Row) :
    (alumniOf idx rows).length = rows.length := by
  induction rows generalizing idx with
  | nil => rfl
  | cons r rs ih => simp [alumniOf, ih]

theorem normalizeTables_alumni (rows : List Row) :
    (normalizeTables rows).alumni = alumniOf 0 rows := by
  rw [normalizeTables, normalizeFrom_alumni]
  rfl

/-! ### Case equations for `processRow` -/

theorem processRow_eq_new (st : NState) (idx : Nat) (row : Row)
    (h : mapGet st.campusSet (resolvedCampus row) = none) :
    processRow st idx row =
      ⟨st.campusSet ++ [(resolvedCampus row, st.campusSet.length + 1)],
       st.alumni ++ [⟨idx + 1, resolvedLast row, resolvedFirst row, resolvedBatch row⟩],
       st.campuses ++ [⟨st.campusSet.length + 1, resolvedCampus row⟩],
       st.alumniCampus ++ [⟨idx + 1, st.campusSet.length + 1⟩]⟩ := by
  simp [processRow, h]

theorem processRow_eq_old (st : NState) (idx : Nat) (row : Row) (cid : Nat)
    (h : mapGet st.campusSet (resolvedCampus row) = some cid) :
    processRow st idx row =
      ⟨st.campusSet,
       st.alumni ++ [⟨idx + 1, resolvedLast row, resolvedFirst row, resolvedBatch row⟩],
       st.campuses,
       st.alumniCampus ++ [⟨idx + 1, cid⟩]⟩ := by
  simp [processRow, h]

/-- The `Map` invariant of the loop: the association list is exactly the
campus table's `(name, id)` pairs. -/
def MapInv (st : NState) : Prop := st.campusSet = st.campuses.map pairOf

theorem mapInv_init : MapInv initState := rfl

theorem mapInv_keys {st : NState} (h : MapInv st) :
    st.campusSet.map Prod.fst = st.campuses.map Campus.campus_name := by
  rw [h, List.map_map]
  rfl

theorem processRow_mapInv {st : NState} (idx : Nat) (row : Row) (h : MapInv st) :
    MapInv (processRow st idx row) := by
  cases hget : mapGet st.campusSet (resolvedCampus row) with
  | none =>
    rw [processRow_eq_new st idx row hget]
    show st.campusSet ++ _ = (st.campuses ++ _).map pairOf
    rw [List.map_append, h]
    rfl
  | some cid =>
    rw [processRow_eq_old st idx row cid hget]
    exact h

theorem normalizeFrom_mapInv :
    ∀ (rows : List Row) (st : NState) (idx : Nat),
      MapInv st → MapInv (normalizeFrom st idx rows) := by
  intro rows
  induction rows with
  | nil => intro st idx h; exact h
  | cons r rs ih => intro st idx h; exact ih _ _ (processRow_mapInv idx r h)

theorem normalizeFrom_campuses_mono :
    ∀ (rows : List Row) (st : NState) (idx : Nat),
      ∃ tail, (normalizeFrom st idx rows).campuses = st.campuses ++ tail := by
  intro rows
  induction rows with
  | nil => intro st idx; exact ⟨[], by simp [normalizeFrom]⟩
  | cons r rs ih =>
    intro st idx
    obtain ⟨tail, htail⟩ := ih (processRow st idx r) (idx + 1)
    cases hget : mapGet st.campusSet (resolvedCampus r) with
    | none =>
      refine ⟨⟨st.campusSet.length + 1, resolvedCampus r⟩ :: tail, ?_⟩
      rw [normalizeFrom, htail, processRow_eq_new st idx r hget]
      simp
    | some cid =>
      refine ⟨tail, ?_⟩
      rw [normalizeFrom, htail, processRow_eq_old st idx r cid hget]

/-! ### First-seen deduplication -/

/-- First-seen-order deduplication of a value list, relative to the
values already seen. -/
def dedupFS (seen : List String) : List String → List String
  | [] => []
  | n :: ns => if n ∈ seen then dedupFS seen ns else n :: dedupFS (seen ++ [n]) ns

theorem dedupFS_sub_and_nodup :
    ∀ (l seen : List String),
      (∀ x ∈ dedupFS seen l, x ∉ seen) ∧ (dedupFS seen l).Nodup := by
  intro l
  induction l with
  | nil => intro seen; exact ⟨by simp [dedupFS], List.nodup_nil⟩
  | cons n ns ih =>
    intro seen
    by_cases h : n ∈ seen
    · rw [dedupFS, if_pos h]
      exact ih seen
    · rw [dedupFS, if_neg h]
      obtain ⟨hsub, hnd⟩ := ih (seen ++ [n])
      constructor
      · intro x hx
        rcases List.mem_cons.mp hx with rfl | hx
        · exact h
        · intro hxs
          exact hsub x hx (List.mem_append_left _ hxs)
      · refine List.nodup_cons.mpr ⟨?_, ?_⟩
        · intro hn
          exact hsub n hn (List.mem_append_right _ (List.mem_singleton.mpr rfl))
        · exact hnd

theorem mem_dedupFS :
    ∀ (l seen : List String) (x : String),
      x ∈ dedupFS seen l ↔ x ∈ l ∧ x ∉ seen := by
  intro l
  induction l with
  | nil => intro seen x; simp [dedupFS]
  | cons n ns ih =>
    intro seen x
    by_cases h : n ∈ seen
    · rw [dedupFS, if_pos h, ih]
      constructor
      · exact fun ⟨hx, hxs⟩ => ⟨List.mem_cons_of_mem _ hx, hxs⟩
      · rintro ⟨hx, hxs⟩
        rcases List.mem_cons.mp hx with rfl | hx
        · exact absurd h hxs
        · exact ⟨hx, hxs⟩
    · rw [dedupFS, if_neg h]
      constructor
      · intro hx
        rcases List.mem_cons.mp hx with rfl | hx
        · exact ⟨List.mem_cons_self _ _, h⟩
        · obtain ⟨hx', hxs⟩ := (ih _ _).mp hx
          exact ⟨List.mem_cons_of_mem _ hx',
            fun hmem => hxs (List.mem_append_left _ hmem)⟩
      · rintro ⟨hx, hxs⟩
        rcases List.mem_cons.mp hx with rfl | hx
        · exact List.mem_cons_self _ _
        · by_cases hxn : x = n
          · subst hxn; exact List.mem_cons_self _ _
          · refine List.mem_cons_of_mem _ ((ih _ _).mpr ⟨hx, ?_⟩)
            intro hmem
            rcases List.mem_append.mp hmem with hmem | hmem
            · exact hxs hmem
            · exact hxn (List.mem_singleton.mp hmem)

/-! ### The campus table: first-seen names, sequential ids -/

theorem normalizeFrom_campus_names :
    ∀ (rows : List Row) (st : NState) (idx : Nat), MapInv st →
      (normalizeFrom st idx rows).campuses.map Campus.campus_name
        = st.campuses.map Campus.campus_name
          ++ dedupFS (st.campuses.map Campus.campus_name) (rows.map resolvedCampus) := by
  intro rows
  induction rows with
  | nil => intro st idx _; simp [normalizeFrom, dedupFS]
  | cons r rs ih =>
    intro st idx hInv
    rw [normalizeFrom, List.map_cons]
    by_cases hmem : resolvedCampus r ∈ st.campuses.map Campus.campus_name
    · have hget : ∃ cid, mapGet st.campusSet (resolvedCampus r) = some cid := by
        cases hg : mapGet st.campusSet (resolvedCampus r) with
        | none =>
          exfalso
          exact ((mapGet_eq_none_iff _ _).mp hg) (by rw [mapInv_keys hInv]; exact hmem)
        | some cid => exact ⟨cid, rfl⟩
      obtain ⟨cid, hget⟩ := hget
      rw [dedupFS, if_pos hmem]
      have heq := processRow_eq_old st idx r cid hget
      have : MapInv (processRow st idx r) := processRow_mapInv idx r hInv
      rw [ih (processRow st idx r) (idx + 1) this, heq]
    · have hget : mapGet st.campusSet (resolvedCampus r) = none :=
        (mapGet_eq_none_iff _ _).mpr (by rw [mapInv_keys hInv]; exact hmem)
      rw [dedupFS, if_neg hmem]
      have hInv' : MapInv (processRow st idx r) := processRow_mapInv idx r hInv
      rw [ih (processRow st idx r) (idx + 1) hInv', processRow_eq_new st idx r hget]
      show (st.campuses ++ [(⟨st.campusSet.length + 1, resolvedCampus r⟩ : Campus)]).map Campus.campus_name
        ++ dedupFS _ _ = _
      rw [List.map_append]
      show st.campuses.map Campus.campus_name ++ [resolvedCampus r] ++ _ = _
      rw [List.append_assoc]
      rfl

theorem normalizeFrom_campus_ids :
    ∀ (rows : List Row) (st : NState) (idx : Nat), MapInv st →
      st.campuses.map Campus.campus_id
        = (List.range st.campuses.length).map (fun i => i + 1) →
      (normalizeFrom st idx rows).campuses.map Campus.campus_id
        = (List.range (normalizeFrom st idx rows).campuses.length).map (fun i => i + 1) := by
  intro rows
  induction rows with
  | nil => intro st idx _ hids; exact hids
  | cons r rs ih =>
    intro st idx hInv hids
    have hlen : st.campusSet.length = st.campuses.length := by
      rw [hInv, List.length_map]
    rw [normalizeFrom]
    cases hget : mapGet st.campusSet (resolvedCampus r) with
    | some cid =>
      refine ih _ (idx + 1) (processRow_mapInv idx r hInv) ?_
      rw [processRow_eq_old st idx r cid hget]
      exact hids
    | none =>
      refine ih _ (idx + 1) (processRow_mapInv idx r hInv) ?_
      rw [processRow_eq_new st idx r hget]
      show (st.campuses ++ [(⟨st.campusSet.length + 1, resolvedCampus r⟩ : Campus)]).map Campus.campus_id
        = (List.range (st.campuses ++ _).length).map (fun i => i + 1)
      rw [List.map_append, List.length_append, hids, hlen]
      show _ ++ [st.campuses.length + 1]
        = (List.range (st.campuses.length + 1)).map (fun i => i + 1)
      rw [List.range_succ, List.map_append]
      rfl

/-! ### The junction table -/

theorem normalizeFrom_ac_ids :
    ∀ (rows : List Row) (st : NState) (idx : Nat),
      (normalizeFrom st idx rows).alumniCampus.map AlumniCampus.alumni_id
        = st.alumniCampus.map AlumniCampus.alumni_id
          ++ (alumniOf idx rows).map Alumni.alumni_id := by
  intro rows
  induction rows with
  | nil => intro st idx; simp [normalizeFrom, alumniOf]
  | cons r rs ih =>
    intro st idx
    rw [normalizeFrom, ih, alumniOf]
    cases hget : mapGet st.campusSet (resolvedCampus r) with
    | none =>
      rw [processRow_eq_new st idx r hget]
      show (st.alumniCampus ++ [(⟨idx + 1, st.campusSet.length + 1⟩ : AlumniCampus)]).map
          AlumniCampus.alumni_id ++ _ = _
      rw [List.map_append, List.append_assoc]
      rfl
    | some cid =>
      rw [processRow_eq_old st idx r cid hget]
      show (st.alumniCampus ++ [(⟨idx + 1, cid⟩ : AlumniCampus)]).map
          AlumniCampus.alumni_id ++ _ = _
      rw [List.map_append, List.append_assoc]
      rfl

/-- Every junction entity appended for `rows` points at a campus entity
of the final campus table carrying that row's resolved campus name. -/
theorem normalizeFrom_link :
    ∀ (rows : List Row) (st : NState) (idx : Nat), MapInv st →
      ∃ acNew, (normalizeFrom st idx rows).alumniCampus = st.alumniCampus ++ acNew ∧
        List.Forall₂ (fun r ac => ∃ c, c ∈ (normalizeFrom st idx rows).campuses ∧
          c.campus_name = resolvedCampus r ∧ ac.campus_id = c.campus_id) rows acNew := by
  intro rows
  induction rows with
  | nil =>
    intro st idx _
    exact ⟨[], by simp [normalizeFrom], List.Forall₂.nil⟩
  | cons r rs ih =>
    intro st idx hInv
    have hInv' : MapInv (processRow st idx r) := processRow_mapInv idx r hInv
    obtain ⟨acNew', hacs', hfa'⟩ := ih (processRow st idx r) (idx + 1) hInv'
    obtain ⟨tail, htail⟩ := normalizeFrom_campuses_mono rs (processRow st idx r) (idx + 1)
    cases hget : mapGet st.campusSet (resolvedCampus r) with
    | none =>
      refine ⟨⟨idx + 1, st.campusSet.length + 1⟩ :: acNew', ?_, ?_⟩
      · rw [normalizeFrom, hacs', processRow_eq_new st idx r hget]
        simp
      · refine List.Forall₂.cons ?_ hfa'
        refine ⟨⟨st.campusSet.length + 1, resolvedCampus r⟩, ?_, rfl, rfl⟩
        rw [show normalizeFrom st idx (r :: rs)
              = normalizeFrom (processRow st idx r) (idx + 1) rs from rfl,
          htail, processRow_eq_new st idx r hget]
        show _ ∈ st.campuses ++ [(⟨st.campusSet.length + 1, resolvedCampus r⟩ : Campus)] ++ tail
        rw [List.append_assoc]
        exact List.mem_append_right _ (List.mem_append_left _ (List.mem_singleton.mpr rfl))
    | some cid =>
      refine ⟨⟨idx + 1, cid⟩ :: acNew', ?_, ?_⟩
      · rw [normalizeFrom, hacs', processRow_eq_old st idx r cid hget]
        simp
      · refine List.Forall₂.cons ?_ hfa'
        have hpair : (resolvedCampus r, cid) ∈ st.campuses.map pairOf := by
          rw [← hInv]
          exact mapGet_mem hget
        obtain ⟨c, hc, hcp⟩ := List.mem_map.mp hpair
        obtain ⟨hname, hcid⟩ : c.campus_name = resolvedCampus r ∧ c.campus_id = cid := by
          rw [pairOf] at hcp
          exact ⟨congrArg Prod.fst hcp, congrArg Prod.snd hcp⟩
        refine ⟨c, ?_, hname, hcid.symm⟩
        rw [show normalizeFrom st idx (r :: rs)
              = normalizeFrom (processRow st idx r) (idx + 1) rs from rfl,
          htail, processRow_eq_old st idx r cid hget]
        exact List.mem_append_left _ hc

/-! ### Id uniqueness -/

theorem alumniOf_id_gt :
    ∀ (rows : List Row) (idx : Nat) (a : Alumni),
      a ∈ alumniOf idx rows → idx < a.alumni_id := by
  intro rows
  induction rows with
  | nil => intro idx a h; simp [alumniOf] at h
  | cons r rs ih =>
    intro idx a h
    rcases List.mem_cons.mp h with rfl | h
    · exact Nat.lt_succ_self idx
    · exact Nat.lt_of_succ_lt (ih (idx + 1) a h)

theorem alumniOf_ids_nodup :
    ∀ (rows : List Row) (idx : Nat),
      ((alumniOf idx rows).map Alumni.alumni_id).Nodup := by
  intro rows
  induction rows with
  | nil => intro idx; simp [alumniOf]
  | cons r rs ih =>
    intro idx
    rw [alumniOf, List.map_cons]
    refine List.nodup_cons.mpr ⟨?_, ih (idx + 1)⟩
    intro hmem
    obtain ⟨a, ha, hid⟩ := List.mem_map.mp hmem
    have hid' : a.alumni_id = idx + 1 := hid
    have := alumniOf_id_gt rs (idx + 1) a ha
    omega

theorem mem_map_exists_unique {α β : Type} {l : List α} {f : α → β}
    (hn : (l.map f).Nodup) {b : β} (hb : b ∈ l.map f) :
    ∃! a, a ∈ l ∧ f a = b := by
  obtain ⟨a, ha, rfl⟩ := List.mem_map.mp hb
  refine ⟨a, ⟨ha, rfl⟩, ?_⟩
  rintro a' ⟨ha', he⟩
  exact List.inj_on_of_nodup_map hn ha' ha he

theorem campus_ids_nodup (rows : List Row) :
    ((normalizeTables rows).campuses.map Campus.campus_id).Nodup := by
  rw [normalizeTables,
    normalizeFrom_campus_ids rows initState 0 mapInv_init (by rfl)]
  exact List.Nodup.map (fun a b h => by omega) (List.nodup_range _)

/-! ## Endpoint boundary

The HTTP boundary, with serialization left structural: `Papa.unparse`
and `zipSync` are external collaborators, so a CSV body carries its
record list and a ZIP body carries the three tables.  Both handlers
receive the ambient clock (`new Date().getFullYear()`) as the explicit
parameter `currentYear`; the Normalize handler never reads it, exactly
as its source never constructs a `Date`.  A missing `file` form field is
the `none` case and returns the 404 JSON error of both routes.
-/

/-- A response body: a CSV download, a ZIP download of the three
normalized tables, or a JSON object with string fields. -/
inductive RespBody where
  | csvRecords (records : List CleanRec)
  | zipTables (tables : NState)
  | jsonFields (fields : List (String × String))
deriving DecidableEq, Repr

/-- An HTTP response: status code and body. -/
structure HttpResponse where
  status : Nat
  body : RespBody
deriving DecidableEq, Repr

/-- Does a body's JSON object carry an `error` key? -/
def hasErrorKey : RespBody → Bool
  | .jsonFields fields => fields.any (fun p => p.1 == "error")
  | _ => false

/-- The `POST /api/transform` handler on an already-parsed upload. -/
def transformPOST (currentYear : Int) (file : Option (List TRow)) : HttpResponse :=
  match file with
  | none => ⟨404, .jsonFields [("error", "File not found.")]⟩
  | some rows => ⟨200, .csvRecords (transformedData currentYear rows)⟩

/-- The `POST /api/normalize` handler on an already-parsed upload; the
`currentYear` clock parameter is unused because the route never reads
the clock. -/
def normalizePOST (_currentYear : Int) (file : Option (List Row)) : HttpResponse :=
  match file with
  | none => ⟨404, .jsonFields [("error", "File not found.")]⟩
  | some rows => ⟨200, .zipTables (normalizeTables rows)⟩

/-! ## Join-back of the normalizer's own output (spec §8.6)

Modelled from the spec: the idempotence check of §8.6 re-joins
`alumni.csv` and `campus.csv` through `alumni_campus.csv` into rows in
the already-normalized alias shape (`last_name`, `first_name`, `campus`,
`batch_year` — the §4.3 aliases), which is a test-harness construction,
not code of the repository.
-/

/-- The campus name a junction row refers to. -/
def campusNameOf (cs : List Campus) (cid : Nat) : String :=
  match cs.find? (fun c => c.campus_id == cid) with
  | some c => c.campus_name
  | none => ""

/-- A re-joined row in the already-normalized alias shape. -/
def mkJoinedRow (a : Alumni) (cname : String) : Row := fun k =>
  if k = "last_name" then some (some a.last_name)
  else if k = "first_name" then some (some a.first_name)
  else if k = "campus" then some (some cname)
  else if k = "batch_year" then some (some a.batch_year)
  else none

/-- Join the three output tables back into input-shaped rows. -/
def joinBack (st : NState) : List Row :=
  List.zipWith (fun a ac => mkJoinedRow a (campusNameOf st.campuses ac.campus_id))
    st.alumni st.alumniCampus

theorem mkJoinedRow_resolvedLast (a : Alumni) (cname : String)
    (h : jsTrim a.last_name = a.last_name) :
    resolvedLast (mkJoinedRow a cname) = a.last_name := by
  have h1 : mkJoinedRow a cname "LastName" = none := by
    rw [mkJoinedRow, if_neg (by decide), if_neg (by decide), if_neg (by decide),
      if_neg (by decide)]
  have h2 : mkJoinedRow a cname "last_name" = some (some a.last_name) := by
    rw [mkJoinedRow, if_pos rfl]
  rw [resolvedLast, getValue_cons, h1]
  show (if presentVal none then _ else _) = _
  rw [if_neg (by decide), getValue_cons, h2]
  by_cases he : a.last_name = ""
  · rw [if_neg (by rw [he]; decide), getValue_nil, he]
  · rw [if_pos (by simp [presentVal, he]), cellStr, h]

theorem mkJoinedRow_resolvedFirst (a : Alumni) (cname : String)
    (h : jsTrim a.first_name = a.first_name) :
    resolvedFirst (mkJoinedRow a cname) = a.first_name := by
  have h1 : mkJoinedRow a cname "FirstName" = none := by
    rw [mkJoinedRow, if_neg (by decide), if_neg (by decide), if_neg (by decide),
      if_neg (by decide)]
  have h2 : mkJoinedRow a cname "first_name" = some (some a.first_name) := by
    rw [mkJoinedRow, if_neg (by decide), if_pos rfl]
  rw [resolvedFirst, getValue_cons, h1]
  show (if presentVal none then _ else _) = _
  rw [if_neg (by decide), getValue_cons, h2]
  by_cases he : a.first_name = ""
  · rw [if_neg (by rw [he]; decide), getValue_nil, he]
  · rw [if_pos (by simp [presentVal, he]), cellStr, h]

theorem mkJoinedRow_resolvedBatch (a : Alumni) (cname : String)
    (h : jsTrim a.batch_year = a.batch_year) :
    resolvedBatch (mkJoinedRow a cname) = a.batch_year := by
  have h1 : mkJoinedRow a cname "Batch" = none := by
    rw [mkJoinedRow, if_neg (by decide), if_neg (by decide), if_neg (by decide),
      if_neg (by decide)]
  have h2 : mkJoinedRow a cname "batch_year" = some (some a.batch_year) := by
    rw [mkJoinedRow, if_neg (by decide), if_neg (by decide), if_neg (by decide),
      if_pos rfl]
  rw [resolvedBatch, getValue_cons, h1]
  show (if presentVal none then _ else _) = _
  rw [if_neg (by decide), getValue_cons, h2]
  by_cases he : a.batch_year = ""
  · rw [if_neg (by rw [he]; decide), getValue_nil, he]
  · rw [if_pos (by simp [presentVal, he]), cellStr, h]

/-- The three resolved name/batch fields of a row — all the alumni table
depends on. -/
def resolvedTriple (r : Row) : String × String × String :=
  (resolvedLast r, resolvedFirst r, resolvedBatch r)

theorem alumniOf_eq_of_resolved :
    ∀ (rows rows' : List Row) (idx : Nat),
      rows.map resolvedTriple = rows'.map resolvedTriple →
      alumniOf idx rows = alumniOf idx rows' := by
  intro rows
  induction rows with
  | nil =>
    intro rows' idx h
    cases rows' with
    | nil => rfl
    | cons r' rs' => simp at h
  | cons r rs ih =>
    intro rows' idx h
    cases rows' with
    | nil => simp at h
    | cons r' rs' =>
      rw [List.map_cons, List.map_cons] at h
      injection h with hhead htail
      unfold resolvedTriple at hhead
      simp only [Prod.mk.injEq] at hhead
      obtain ⟨h1, h2, h3⟩ := hhead
      rw [alumniOf, alumniOf, h1, h2, h3, ih rs' (idx + 1) htail]

theorem alumniOf_fields :
    ∀ (rows : List Row) (idx : Nat),
      (alumniOf idx rows).map (fun a => (a.last_name, a.first_name, a.batch_year))
        = rows.map resolvedTriple := by
  intro rows
  induction rows with
  | nil => intro idx; rfl
  | cons r rs ih =>
    intro idx
    rw [alumniOf, List.map_cons, List.map_cons, ih]
    rfl

theorem alumniOf_trim_fixed :
    ∀ (rows : List Row) (idx : Nat) (a : Alumni), a ∈ alumniOf idx rows →
      jsTrim a.last_name = a.last_name ∧ jsTrim a.first_name = a.first_name ∧
        jsTrim a.batch_year = a.batch_year := by
  intro rows
  induction rows with
  | nil => intro idx a h; simp [alumniOf] at h
  | cons r rs ih =>
    intro idx a h
    rcases List.mem_cons.mp h with rfl | h
    · exact ⟨getValue_trim_fixed r _, getValue_trim_fixed r _, getValue_trim_fixed r _⟩
    · exact ih (idx + 1) a h

theorem joinBack_resolved (cs : List Campus) :
    ∀ (la : List Alumni) (lac : List AlumniCampus),
      la.length = lac.length →
      (∀ a ∈ la, jsTrim a.last_name = a.last_name ∧ jsTrim a.first_name = a.first_name ∧
        jsTrim a.batch_year = a.batch_year) →
      (List.zipWith (fun a ac => mkJoinedRow a (campusNameOf cs ac.campus_id)) la lac).map
          resolvedTriple
        = la.map (fun a => (a.last_name, a.first_name, a.batch_year)) := by
  intro la
  induction la with
  | nil => intro lac _ _; rfl
  | cons a la' ih =>
    intro lac hlen hfix
    cases lac with
    | nil => simp at hlen
    | cons ac lac' =>
      rw [List.zipWith_cons_cons, List.map_cons, List.map_cons]
      obtain ⟨hl, hf, hb⟩ := hfix a (List.mem_cons_self _ _)
      congr 1
      · rw [resolvedTriple, mkJoinedRow_resolvedLast a _ hl, mkJoinedRow_resolvedFirst a _ hf,
          mkJoinedRow_resolvedBatch a _ hb]
      · exact ih lac' (by simpa using hlen) (fun x hx => hfix x (List.mem_cons_of_mem _ hx))

theorem normalizeTables_ac_length (rows : List Row) :
    (normalizeTables rows).alumniCampus.length = rows.length := by
  have h := normalizeFrom_ac_ids rows initState 0
  rw [show normalizeFrom initState 0 rows = normalizeTables rows from rfl] at h
  have : ((normalizeTables rows).alumniCampus.map AlumniCampus.alumni_id).length
      = ((alumniOf 0 rows).map Alumni.alumni_id).length := by
    rw [h]; rfl
  simpa [alumniOf_length] using this

theorem normalizeTables_alumni_length (rows : List Row) :
    (normalizeTables rows).alumni.length = rows.length := by
  rw [normalizeTables_alumni, alumniOf_length]

/-! ### Packaged table characterizations -/

theorem normalizeTables_campus_names (rows : List Row) :
    (normalizeTables rows).campuses.map Campus.campus_name
      = dedupFS [] (rows.map resolvedCampus) := by
  rw [normalizeTables]
  simpa [initState] using normalizeFrom_campus_names rows initState 0 mapInv_init

theorem normalizeTables_campus_ids (rows : List Row) :
    (normalizeTables rows).campuses.map Campus.campus_id
      = (List.range (normalizeTables rows).campuses.length).map (fun i => i + 1) := by
  rw [normalizeTables]
  exact normalizeFrom_campus_ids rows initState 0 mapInv_init rfl

theorem normalizeTables_ac_ids (rows : List Row) :
    (normalizeTables rows).alumniCampus.map AlumniCampus.alumni_id
      = (alumniOf 0 rows).map Alumni.alumni_id := by
  rw [normalizeTables]
  simpa [initState] using normalizeFrom_ac_ids rows initState 0

theorem normalizeTables_link (rows : List Row) :
    List.Forall₂ (fun r ac => ∃ c, c ∈ (normalizeTables rows).campuses ∧
      c.campus_name = resolvedCampus r ∧ ac.campus_id = c.campus_id)
      rows (normalizeTables rows).alumniCampus := by
  obtain ⟨acNew, hacs, hfa⟩ := normalizeFrom_link rows initState 0 mapInv_init
  rw [normalizeTables]
  have h : (normalizeFrom initState 0 rows).alumniCampus = acNew := by
    simpa [initState] using hacs
  rw [h]
  exact hfa

theorem forall2_mem_right {α β : Type} {R : α → β → Prop} :
    ∀ {l₁ : List α} {l₂ : List β}, List.Forall₂ R l₁ l₂ → ∀ b ∈ l₂, ∃ a ∈ l₁, R a b := by
  intro l₁ l₂ h
  induction h with
  | nil => intro b hb; simp at hb
  | cons hab _ ih =>
    intro b hb
    rcases List.mem_cons.mp hb with rfl | hb
    · exact ⟨_, List.mem_cons_self _ _, hab⟩
    · obtain ⟨a, ha, hr⟩ := ih b hb
      exact ⟨a, List.mem_cons_of_mem _ ha, hr⟩

/-! ### The acceptance filter, spelt out -/

theorem acceptRow_true_iff (y : Int) (r : TRow) :
    acceptRow y r = true ↔
      truthy r.LastName = true ∧ truthy r.FirstName = true ∧ truthy r.Campus = true ∧
      truthy r.Batch = true ∧
      ∃ d, jsNumberOpt r.Batch = some d ∧ (1964 : ℚ) ≤ d.toRat ∧ d.toRat ≤ (y : ℚ) := by
  unfold acceptRow
  cases hd : jsNumberOpt r.Batch with
  | none => simp [hd]
  | some d =>
    simp [hd, Bool.and_eq_true, JsNum.intLe_iff, JsNum.leInt_iff]
    tauto

theorem truthy_map_isSome {o : Option String} (h : truthy o = true) :
    (o.map jsTrim).isSome = true := by
  cases o with
  | none => simp [truthy] at h
  | some s => rfl

/-! ## Concrete rows used in counterexamples and witnesses -/

/-- A Transform row whose `Batch` is the non-integer numeric `"2000.5"`. -/
def rowFracBatch : TRow := ⟨some "Smith", some "Ann", some "Main", some "2000.5"⟩

/-- A fully valid Transform row. -/
def rowGood : TRow := ⟨some "A", some "B", some "C", some "2000"⟩

/-- A Normalize row missing `LastName`, `FirstName` and `Campus`, with an
out-of-range `Batch`. -/
def rowMissingMost : Row := fun k => if k = "Batch" then some (some "1800") else none

/-- A Normalize row carrying only a `Campus` value. -/
def rowOnlyCampusX : Row := fun k => if k = "Campus" then some (some "X") else none

/-- A Normalize row with a `Campus` value and an out-of-range `Batch`. -/
def rowOnlyCampusY : Row := fun k =>
  if k = "Campus" then some (some "Y")
  else if k = "Batch" then some (some "1800") else none

/-- A Normalize row whose `Campus` cell is a lone space (resolves to `""`). -/
def rowSpaceCampus : Row := fun k => if k = "Campus" then some (some " ") else none

/-- A Normalize row with no cells at all. -/
def rowNoCells : Row := fun _ => none

/-- A fully valid Normalize row. -/
def rowFull : Row := fun k =>
  if k = "LastName" then some (some "Dela Rosa")
  else if k = "FirstName" then some (some "Nolan")
  else if k = "Campus" then some (some "Main Campus")
  else if k = "Batch" then some (some "2004") else none

/-! ## Claims -/

/-- C1, counterexample: a row missing `LastName` (and more) with `Batch`
1800 — rejected by the spec's acceptance predicate — still yields an
Alumni, a Campus and an AlumniCampus entity in the Normalize pipeline,
because that route filters nothing. -/
theorem c1_counterexample :
    rowMissingMost "LastName" = none
    ∧ specAcceptN 2025 rowMissingMost = false
    ∧ (normalizeTables [rowMissingMost]).alumni.length = 1
    ∧ (normalizeTables [rowMissingMost]).alumniCampus.length = 1
    ∧ (normalizeTables [rowMissingMost]).campuses.length = 1 := by
  refine ⟨rfl, by decide, by decide, by decide, by decide⟩

/-- C1, amended: rows missing required fields or with invalid `Batch` are
excluded from the Transform pipeline's output (every output record comes
from a row that passed the filter, and there are exactly as many records
as accepted rows); the Normalize pipeline applies no such validation and
produces one Alumni and one AlumniCampus entity for every parsed row. -/
theorem c1_amended (y : Int) (ts : List TRow) (ns : List Row) :
    (transformedData y ts).length = (ts.filter (acceptRow y)).length
    ∧ (∀ rec ∈ transformedData y ts,
        ∃ r, r ∈ ts ∧ acceptRow y r = true ∧ rec = transformRecord r)
    ∧ (normalizeTables ns).alumni.length = ns.length
    ∧ (normalizeTables ns).alumniCampus.length = ns.length := by
  refine ⟨?_, ?_, normalizeTables_alumni_length ns, normalizeTables_ac_length ns⟩
  · rw [transformedData, List.length_map]
  · intro rec hrec
    obtain ⟨r, hr, rfl⟩ := List.mem_map.mp hrec
    obtain ⟨hmem, hacc⟩ := List.mem_filter.mp hr
    exact ⟨r, hmem, hacc, rfl⟩

/-- C1, witness for the amended claim at a concrete accepted row. -/
theorem c1_witness :
    transformRecord rowGood ∈ transformedData 2025 [rowGood]
    ∧ ∃ r, r ∈ [rowGood] ∧ acceptRow 2025 r = true
        ∧ transformRecord rowGood = transformRecord r :=
  ⟨by decide, (c1_amended 2025 [rowGood] []).2.1 (transformRecord rowGood) (by decide)⟩

/-- C2, counterexample: the code accepts a row whose `Batch` is
`"2000.5"` — a numeric but non-integer value — which the spec's
predicate (integer parse) rejects, so the stated "if and only if" fails. -/
theorem c2_counterexample :
    acceptRow 2025 rowFracBatch = true ∧ specAcceptRow 2025 rowFracBatch = false := by
  exact ⟨by decide, by decide⟩

/-- C2, amended: the Transform pipeline accepts a row iff all four fields
are JavaScript-truthy (present and non-empty — a whitespace-only value
counts) and `Number(Batch)` yields a numeric value `B` — not necessarily
an integer — with `1964 ≤ B ≤ Y`. -/
theorem c2_amended (y : Int) (r : TRow) :
    acceptRow y r = true ↔
      truthy r.LastName = true ∧ truthy r.FirstName = true ∧ truthy r.Campus = true ∧
      truthy r.Batch = true ∧
      ∃ d, jsNumberOpt r.Batch = some d ∧ (1964 : ℚ) ≤ d.toRat ∧ d.toRat ≤ (y : ℚ) :=
  acceptRow_true_iff y r

/-- C3, counterexample: on an input whose only row is rejected by the
spec's acceptance predicate, there are zero distinct campus values among
accepted rows, yet the Campus table holds one entity — the Normalizer
deduplicates over all parsed rows, not over accepted rows. -/
theorem c3_counterexample :
    specAcceptN 2025 rowOnlyCampusX = false
    ∧ (normalizeTables [rowOnlyCampusX]).campuses.length = 1 := by
  exact ⟨by decide, by decide⟩

/-- C3, amended: with "accepted rows" read as the rows the Normalizer
actually processes (all parsed rows — it filters nothing), the Campus
table lists exactly the distinct resolved (trimmed) campus names in
first-seen order, with `campus_id` assigned sequentially from 1, no
duplicate names, and the same value set as the rows' resolved names. -/
theorem c3_amended (rows : List Row) :
    (normalizeTables rows).campuses.map Campus.campus_name
      = dedupFS [] (rows.map resolvedCampus)
    ∧ (normalizeTables rows).campuses.map Campus.campus_id
        = (List.range (normalizeTables rows).campuses.length).map (fun i => i + 1)
    ∧ ((normalizeTables rows).campuses.map Campus.campus_name).Nodup
    ∧ ∀ x, (x ∈ (normalizeTables rows).campuses.map Campus.campus_name
        ↔ x ∈ rows.map resolvedCampus) := by
  refine ⟨normalizeTables_campus_names rows, normalizeTables_campus_ids rows, ?_, ?_⟩
  · rw [normalizeTables_campus_names]
    exact (dedupFS_sub_and_nodup _ []).2
  · intro x
    rw [normalizeTables_campus_names, mem_dedupFS]
    simp

/-- C4, counterexample: on an input whose only row fails the spec's
acceptance predicate (no name fields, `Batch` 1800), the accepted-row
count is zero yet AlumniCampus holds one entity, refuting "exactly one
entity per accepted row". -/
theorem c4_counterexample :
    specAcceptN 2025 rowOnlyCampusY = false
    ∧ (normalizeTables [rowOnlyCampusY]).alumniCampus.length = 1 := by
  exact ⟨by decide, by decide⟩

/-- C4, amended: the AlumniCampus table has exactly one entity per
*parsed* row (the Normalizer filters nothing), and referential integrity
holds: each junction entity's `alumni_id` matches exactly one Alumni
entity and its `campus_id` matches exactly one Campus entity. -/
theorem c4_amended (rows : List Row) :
    (normalizeTables rows).alumniCampus.length = rows.length
    ∧ ∀ ac ∈ (normalizeTables rows).alumniCampus,
        (∃! a, a ∈ (normalizeTables rows).alumni ∧ a.alumni_id = ac.alumni_id)
        ∧ (∃! c, c ∈ (normalizeTables rows).campuses ∧ c.campus_id = ac.campus_id) := by
  refine ⟨normalizeTables_ac_length rows, ?_⟩
  intro ac hac
  constructor
  · have hmem : ac.alumni_id ∈ (normalizeTables rows).alumni.map Alumni.alumni_id := by
      rw [normalizeTables_alumni, ← normalizeTables_ac_ids]
      exact List.mem_map_of_mem _ hac
    have hnd : ((normalizeTables rows).alumni.map Alumni.alumni_id).Nodup := by
      rw [normalizeTables_alumni]
      exact alumniOf_ids_nodup rows 0
    exact mem_map_exists_unique hnd hmem
  · obtain ⟨r, _, c, hc, _, hcid⟩ :=
      forall2_mem_right (normalizeTables_link rows) ac hac
    have hmem : ac.campus_id ∈ (normalizeTables rows).campuses.map Campus.campus_id := by
      rw [hcid]
      exact List.mem_map_of_mem _ hc
    exact mem_map_exists_unique (campus_ids_nodup rows) hmem

/-- C4, witness for the amended claim at a concrete one-row input. -/
theorem c4_witness :
    (normalizeTables [rowFull]).alumniCampus.length = 1
    ∧ ((∃! a, a ∈ (normalizeTables [rowFull]).alumni
          ∧ a.alumni_id = (⟨1, 1⟩ : AlumniCampus).alumni_id)
       ∧ (∃! c, c ∈ (normalizeTables [rowFull]).campuses
          ∧ c.campus_id = (⟨1, 1⟩ : AlumniCampus).campus_id)) :=
  ⟨(c4_amended [rowFull]).1, (c4_amended [rowFull]).2 ⟨1, 1⟩ (by decide)⟩

/-- C5: the field-resolution utility returns the trimmed value of the
first alias (in list order) whose cell is present with a non-null,
non-empty value, and the empty string when no alias qualifies — first
match wins, nothing is merged. -/
theorem c5_first_alias (row : Row) (keys : List String) :
    getValue row keys =
      match keys.find? (fun k => presentVal (row k)) with
      | some k => jsTrim (cellStr (row k))
      | none => "" :=
  getValue_eq_find row keys

/-- C6: the empty campus name is an ordinary dedup key — whenever some
row resolves to an empty campus name, the Campus table holds exactly one
entity named `""`, and every row resolving to `""` is linked (through
its junction entity, positionally) to that entity's `campus_id`. -/
theorem c6_empty_campus (rows : List Row) (h : ∃ r ∈ rows, resolvedCampus r = "") :
    ∃ c, c ∈ (normalizeTables rows).campuses ∧ c.campus_name = ""
      ∧ (∀ c' ∈ (normalizeTables rows).campuses, c'.campus_name = "" → c' = c)
      ∧ List.Forall₂ (fun r ac => resolvedCampus r = "" → ac.campus_id = c.campus_id)
          rows (normalizeTables rows).alumniCampus := by
  obtain ⟨r₀, hr₀, hres⟩ := h
  have hmem : "" ∈ (normalizeTables rows).campuses.map Campus.campus_name := by
    rw [normalizeTables_campus_names, mem_dedupFS]
    exact ⟨hres ▸ List.mem_map_of_mem _ hr₀, by simp⟩
  obtain ⟨c, hc, hcname⟩ := List.mem_map.mp hmem
  have hnd : ((normalizeTables rows).campuses.map Campus.campus_name).Nodup := by
    rw [normalizeTables_campus_names]
    exact (dedupFS_sub_and_nodup _ []).2
  refine ⟨c, hc, hcname, ?_, ?_⟩
  · intro c' hc' hcname'
    exact List.inj_on_of_nodup_map hnd hc' hc (by rw [hcname, hcname'])
  · refine List.Forall₂.imp ?_ (normalizeTables_link rows)
    intro r ac hQ hres'
    obtain ⟨c', hc', hname', hcid'⟩ := hQ
    have hceq : c' = c :=
      List.inj_on_of_nodup_map hnd hc' hc (by rw [hname', hres', hcname])
    rw [hcid', hceq]

/-- C6, witness: a two-row input in which both rows resolve to the empty
campus name. -/
theorem c6_witness :
    ∃ c, c ∈ (normalizeTables [rowSpaceCampus, rowNoCells]).campuses ∧ c.campus_name = ""
      ∧ (∀ c' ∈ (normalizeTables [rowSpaceCampus, rowNoCells]).campuses,
          c'.campus_name = "" → c' = c)
      ∧ List.Forall₂ (fun r ac => resolvedCampus r = "" → ac.campus_id = c.campus_id)
          [rowSpaceCampus, rowNoCells]
          (normalizeTables [rowSpaceCampus, rowNoCells]).alumniCampus :=
  c6_empty_campus [rowSpaceCampus, rowNoCells]
    ⟨rowSpaceCampus, List.mem_cons_self _ _, by decide⟩

/-- C7: feeding the Normalizer its own output — the alumni and campus
tables joined back through the junction table into rows in the §4.3
alias shape — reproduces exactly the same Alumni table (same ids, since
the join preserves row order). -/
theorem c7_idempotent (rows : List Row) :
    (normalizeTables (joinBack (normalizeTables rows))).alumni
      = (normalizeTables rows).alumni := by
  rw [normalizeTables_alumni (joinBack (normalizeTables rows)), normalizeTables_alumni rows]
  apply alumniOf_eq_of_resolved
  rw [joinBack]
  rw [joinBack_resolved (normalizeTables rows).campuses
    (normalizeTables rows).alumni (normalizeTables rows).alumniCampus
    (by rw [normalizeTables_alumni_length, normalizeTables_ac_length])
    (fun a ha => alumniOf_trim_fixed rows 0 a (by rwa [normalizeTables_alumni] at ha))]
  rw [normalizeTables_alumni, alumniOf_fields]

/-- C8: a request with no uploaded file gets, from either endpoint, a
JSON body carrying an `error` key and a status outside the 2xx range. -/
theorem c8_no_file (y : Int) :
    ((normalizePOST y none).status < 200 ∨ 299 < (normalizePOST y none).status)
    ∧ hasErrorKey (normalizePOST y none).body = true
    ∧ ((transformPOST y none).status < 200 ∨ 299 < (transformPOST y none).status)
    ∧ hasErrorKey (transformPOST y none).body = true :=
  ⟨Or.inr (show (299 : Nat) < 404 by decide), rfl,
   Or.inr (show (299 : Nat) < 404 by decide), rfl⟩

/-- C9: every record the Transform pipeline emits has all four output
fields defined — for filtered rows the optional-chaining accesses never
produce `undefined`. -/
theorem c9_defined_fields (y : Int) (rows : List TRow) :
    ∀ rec ∈ transformedData y rows,
      rec.last_name.isSome = true ∧ rec.first_name.isSome = true ∧
      rec.campus.isSome = true ∧ rec.batch_year.isSome = true := by
  intro rec hrec
  obtain ⟨r, hr, rfl⟩ := List.mem_map.mp hrec
  obtain ⟨_, hacc⟩ := List.mem_filter.mp hr
  obtain ⟨h1, h2, h3, h4, _⟩ := (acceptRow_true_iff y r).mp hacc
  exact ⟨truthy_map_isSome h1, truthy_map_isSome h2,
    truthy_map_isSome h3, truthy_map_isSome h4⟩

/-- C9, witness at a concrete accepted row. -/
theorem c9_witness :
    (transformRecord rowGood).last_name.isSome = true
    ∧ (transformRecord rowGood).first_name.isSome = true
    ∧ (transformRecord rowGood).campus.isSome = true
    ∧ (transformRecord rowGood).batch_year.isSome = true :=
  c9_defined_fields 2025 [rowGood] (transformRecord rowGood) (by decide)

/-- C10: the Normalize pipeline is independent of the ambient clock (and
of any other request-external state in the model), so two invocations on
the same parsed upload produce identical responses — in particular
identical Alumni, Campus and AlumniCampus tables. -/
theorem c10_clock_independent (y₁ y₂ : Int) (file : Option (List Row)) :
    normalizePOST y₁ file = normalizePOST y₂ file := rfl

end CsvConverter
